import Mathlib

/-!
# Verification of the KotlinDocsCrawler (src/crawler.py)

A shallow embedding of the crawler: the URL admission filter
(`is_valid_url`), the fetch adapter (`fetch_page`), the link extractor
(`extract_links`), the per-URL task (`process_url`) and the frontier
coordinator loop (`crawl_loop`).  External collaborators (HTTP transport,
BeautifulSoup anchor extraction, `urljoin`, the wall clock) are modelled as
oracle fields of a `World` structure; everything the crawler itself computes
is translated directly from the Python source.
-/

/-! ## Python string primitives -/

/-- Python `s.startswith(pre)`. -/
def pyStartswith (s pre : String) : Bool := pre.data.isPrefixOf s.data

/-- Python `s.endswith(suf)`. -/
def pyEndswith (s suf : String) : Bool := suf.data.isSuffixOf s.data

/-- Python `s.lower()` (character-wise lowercasing). -/
def pyLower (s : String) : String := ⟨s.data.map Char.toLower⟩

/-- Python `c in s` for a single character `c`. -/
def pyHasChar (s : String) (c : Char) : Bool := s.data.contains c

/-- Substring test on character lists (Python `sub in s`). -/
def listSub (pat : List Char) : List Char → Bool
  | [] => pat.isPrefixOf []
  | c :: rest => pat.isPrefixOf (c :: rest) || listSub pat rest

/-- Python `sub in s` substring containment. -/
def pyIn (sub s : String) : Bool := listSub sub.data s.data

/-! ## A model of `urllib.parse.urlparse`

Only the components the crawler touches matter (`path` for the media-file
check); the other components are carried along so that the parse itself
follows CPython's `urlsplit`/`urlparse`: scheme split at the first `':'`
(when the candidate scheme is well formed), netloc after `"//"` up to the
first of `/?#`, fragment at the first `'#'`, query at the first `'?'`, and
params at a `';'` inside the last path segment. -/

/-- The characters CPython accepts inside a URL scheme. -/
def scheme_chars : List Char :=
  "abcdefghijklmnopqrstuvwxyzABCDEFGHIJKLMNOPQRSTUVWXYZ0123456789+-.".data

/-- The six components returned by `urllib.parse.urlparse`. -/
structure UrlParts where
  scheme : List Char
  netloc : List Char
  path : List Char
  params : List Char
  query : List Char
  fragment : List Char
deriving DecidableEq

/-- Split off the scheme (`urlsplit` step 1). -/
def splitScheme (url : List Char) : List Char × List Char :=
  let pre := url.takeWhile (· != ':')
  match url.dropWhile (· != ':') with
  | ':' :: rest =>
    if pre ≠ [] ∧ (∀ c ∈ pre, c ∈ scheme_chars) ∧ pre.headI.isAlpha then
      (pre.map Char.toLower, rest)
    else ([], url)
  | _ => ([], url)

/-- A netloc delimiter: one of `/`, `?`, `#`. -/
def netlocStop (c : Char) : Bool := c == '/' || c == '?' || c == '#'

/-- Split off the network location after a leading `"//"` (`urlsplit` step 2). -/
def splitNetloc (url : List Char) : List Char × List Char :=
  match url with
  | '/' :: '/' :: rest => (rest.takeWhile (fun c => !netlocStop c),
                           rest.dropWhile (fun c => !netlocStop c))
  | _ => ([], url)

/-- Split off the fragment at the first `'#'` (`urlsplit` step 3). -/
def splitFragment (url : List Char) : List Char × List Char :=
  (url.takeWhile (· != '#'), (url.dropWhile (· != '#')).drop 1)

/-- Split off the query at the first `'?'` (`urlsplit` step 4). -/
def splitQuery (url : List Char) : List Char × List Char :=
  (url.takeWhile (· != '?'), (url.dropWhile (· != '?')).drop 1)

/-- The last segment of a path: the characters after the last `'/'` (the
whole path when it has no `'/'`). -/
def lastSeg (path : List Char) : List Char :=
  (path.reverse.takeWhile (· != '/')).reverse

/-- Split params from the last path segment (`urlparse`'s `_splitparams`:
a `';'` is searched starting at the last `'/'`). -/
def splitParams (path : List Char) : List Char × List Char :=
  if (lastSeg path).contains ';' then
    (path.take (path.length - (lastSeg path).length) ++
       (lastSeg path).takeWhile (· != ';'),
     ((lastSeg path).dropWhile (· != ';')).drop 1)
  else (path, [])

/-- `urllib.parse.urlparse` on a character list. -/
def urlparse (url : List Char) : UrlParts :=
  let s1 := splitScheme url
  let s2 := splitNetloc s1.2
  let s3 := splitFragment s2.2
  let s4 := splitQuery s3.1
  let s5 := splitParams s4.1
  ⟨s1.1, s2.1, s5.1, s5.2, s4.2, s3.2⟩

/-! ## The URL admission filter (`KotlinDocsCrawler.is_valid_url`) -/

/-- `self.media_extensions` from the constructor. -/
def media_extensions : List String :=
  [".jpg", ".jpeg", ".png", ".gif", ".bmp", ".svg", ".ico",
   ".mp3", ".wav", ".ogg", ".mp4", ".avi", ".mov", ".webm",
   ".pdf", ".zip", ".tar", ".gz"]

/-- `KotlinDocsCrawler.is_valid_url`.  Python returns `False` or the
(fragment-stripped) URL string; we return `none` or `some` of it. -/
def is_valid_url (url : String) : Option String :=
  if !pyStartswith url "https://kotlinlang.org/" then none
  else if !(pyStartswith url "https://kotlinlang.org/docs" ||
            pyStartswith url "https://kotlinlang.org/api") then none
  else
    let path := pyLower ⟨(urlparse url.data).path⟩
    if media_extensions.any (fun ext => pyEndswith path ext) then none
    else if pyHasChar url '#' then some ⟨url.data.takeWhile (· != '#')⟩
    else some url

example : is_valid_url "https://kotlinlang.org/docs/image.png" = none := by decide
example : is_valid_url "https://kotlinlang.org/docs/page" =
    some "https://kotlinlang.org/docs/page" := by decide
example : is_valid_url "https://kotlinlang.org/docs/intro.html#overview" =
    some "https://kotlinlang.org/docs/intro.html" := by decide
example : is_valid_url "https://kotlinlang.org/blog/news" = none := by decide
example : is_valid_url "https://other.org/docs/x" = none := by decide
example : is_valid_url "https://kotlinlang.org/api/core/" =
    some "https://kotlinlang.org/api/core/" := by decide

/-! ## The world: external collaborators

`http` models one `aiohttp` GET (a response with status, content-type header
and body text, or a raised exception), `hrefs` models
`BeautifulSoup(html).find_all('a', href=True)` (or a raised parsing error),
`urljoin` models `urllib.parse.urljoin`, and `dt` gives the wall-clock time
consumed by iteration `k` of the crawl loop. -/

/-- Outcome of one HTTP GET. -/
inductive HttpResult where
  | response (status : Nat) (contentType : String) (body : String)
  | failure (msg : String)
deriving DecidableEq

/-- The external collaborators of the crawler. -/
structure World where
  http : String → HttpResult
  hrefs : String → Except String (List String)
  urljoin : String → String → String
  dt : Nat → Nat

/-- `KotlinDocsCrawler.fetch_page`: the body on HTTP 200 with an HTML
content-type, `None` on any other status, content-type, or exception. -/
def fetch_page (w : World) (url : String) : Option String :=
  match w.http url with
  | .response status contentType body =>
    if status == 200 then
      if pyIn "text/html" contentType then some body else none
    else none
  | .failure _ => none

/-- `KotlinDocsCrawler.extract_links`: resolve every href against the base
URL, keep those the admission filter accepts and that are not yet visited.
The Python function returns a `set`; iteration order over a `set` is
unspecified, so we model it as a duplicate-free list in document order. -/
def extract_links (w : World) (visited : Finset String) (html base_url : String) :
    Except String (List String) :=
  match w.hrefs html with
  | .error e => .error e
  | .ok hs => .ok ((((hs.map (w.urljoin base_url)).filterMap is_valid_url).filter
      (fun v => v ∉ visited)).dedup)

/-- `KotlinDocsCrawler.process_url`: fetch, then extract; a failed or
non-HTML fetch (and Python's falsy empty body) contributes the empty set. -/
def process_url (w : World) (visited : Finset String) (url : String) :
    Except String (List String) :=
  match fetch_page w url with
  | some html => if html = "" then .ok [] else extract_links w visited html url
  | none => .ok []

/-- The crawler state: `visited`, `to_visit` and `all_links` exactly as in
`KotlinDocsCrawler.__init__`, plus the elapsed wall-clock time and iteration
counter, plus two instrumentation logs (`queuedLog` records every URL ever
appended to `to_visit`, `fetchedLog` every URL ever dispatched for
fetch+extract); the logs record events and influence nothing. -/
structure CrawlState where
  visited : Finset String
  to_visit : List String
  all_links : Finset String
  elapsed : Nat
  iter : Nat
  queuedLog : List String
  fetchedLog : List String
deriving DecidableEq

/-- `KotlinDocsCrawler.__init__(base_urls)`: seeds go straight into the queue
and the discovered set, without passing the admission filter. -/
def initState (seeds : List String) : CrawlState :=
  { visited := ∅, to_visit := seeds, all_links := seeds.toFinset,
    elapsed := 0, iter := 0, queuedLog := seeds, fetchedLog := [] }

/-- The inner dequeue loop of `crawl`: pop URLs while the queue is nonempty
and the batch is below `max_concurrent`; a popped URL already in `visited`
is discarded, otherwise it is marked visited at the moment of dequeue and
put in the batch.  Returns (batch, visited, queue). -/
def popBatch (maxC : Nat) (visited : Finset String) (queue : List String)
    (batch : List String) : List String × Finset String × List String :=
  match queue with
  | [] => (batch, visited, [])
  | u :: rest =>
    if batch.length < maxC then
      if u ∈ visited then popBatch maxC visited rest batch
      else popBatch maxC (insert u visited) rest (batch ++ [u])
    else (batch, visited, queue)

/-- The result-merging loop of `crawl`: exceptions are skipped, a nonempty
set result contributes `new_links = result - all_links`, which is added to
`all_links` and appended to `to_visit`.  The instrumentation log receives
exactly the URLs appended to the queue. -/
def mergeResults (results : List (Except String (List String)))
    (all : Finset String) (queue log : List String) :
    Finset String × List String × List String :=
  match results with
  | [] => (all, queue, log)
  | .error _ :: rest => mergeResults rest all queue log
  | .ok r :: rest =>
    if r = [] then mergeResults rest all queue log
    else
      let new := r.filter (fun u => u ∉ all)
      mergeResults rest (all ∪ new.toFinset) (queue ++ new) (log ++ new)

/-- `21000  # 5.8小时安全边界`: the wall-clock time budget in seconds. -/
def BUDGET : Nat := 21000

/-- One iteration of the `while` body of `crawl` (for a nonempty batch):
pop a batch, dispatch `process_url` for each member, merge the results. -/
def crawl_step (w : World) (maxC : Nat) (s : CrawlState) : CrawlState :=
  let p := popBatch maxC s.visited s.to_visit []
  let results := p.1.map (process_url w p.2.1)
  let m := mergeResults results s.all_links p.2.2 s.queuedLog
  { visited := p.2.1, to_visit := m.2.1, all_links := m.1,
    elapsed := s.elapsed + w.dt s.iter, iter := s.iter + 1,
    queuedLog := m.2.2, fetchedLog := s.fetchedLog ++ p.1 }

/-- The `while` loop of `KotlinDocsCrawler.crawl`, with fuel.  `none` means
the fuel ran out before the loop exited; `some s` means the loop exited in
state `s`: either the loop condition failed (empty queue, or elapsed time
at least the budget) or the batch came up empty (`if not batch_urls: break`). -/
def crawl_loop (w : World) (maxC : Nat) : Nat → CrawlState → Option CrawlState
  | 0, _ => none
  | fuel + 1, s =>
    if s.to_visit = [] ∨ BUDGET ≤ s.elapsed then some s
    else if (popBatch maxC s.visited s.to_visit []).1 = [] then
      some { s with visited := (popBatch maxC s.visited s.to_visit []).2.1,
                    to_visit := (popBatch maxC s.visited s.to_visit []).2.2 }
    else crawl_loop w maxC fuel (crawl_step w maxC s)

/-- `KotlinDocsCrawler.crawl()`: run the loop from the constructor state and
return `self.all_links`. -/
def crawl (w : World) (maxC fuel : Nat) (seeds : List String) :
    Option (Finset String) :=
  (crawl_loop w maxC fuel (initState seeds)).map (·.all_links)

/-- The admissible successor links of a URL: what a dispatch of `u`
contributes before the visited/discovered dedup — the page's hrefs resolved
against `u` and passed through the admission filter when the fetch succeeds
with a nonempty body and extraction does not raise, nothing otherwise. -/
def outLinks (w : World) (u : String) : List String :=
  match fetch_page w u with
  | some html =>
    if html = "" then []
    else
      match w.hrefs html with
      | .ok hs => (hs.map (w.urljoin u)).filterMap is_valid_url
      | .error _ => []
  | none => []

/-- The reachable admissible closure of the seeds: the least set containing
the seeds and closed under following `outLinks` edges. -/
inductive Reachable (w : World) (seeds : List String) : String → Prop where
  | seed {u : String} : u ∈ seeds → Reachable w seeds u
  | step {u v : String} : Reachable w seeds u → v ∈ outLinks w u →
      Reachable w seeds v

/-! ## The output artifacts (`main`) -/

/-- The list serialized into `kotlin_links.json`: `sorted(list(links))`. -/
def write_json (links : Finset String) : List String := links.sort (· ≤ ·)

/-- The content of `kotlin_links.txt`: one `f.write(link + '\n')` per link of
`sorted(links)`, concatenated in write order. -/
def write_txt (links : Finset String) : String :=
  (((links.sort (· ≤ ·)).map (fun l => l ++ "\n")).foldl (· ++ ·) "")

/-! ## Spec-side vocabulary: origin and decoded path

These definitions express the specification's notions (URL origin, the
percent-decoded path) used to state properties of the admission filter; they
are not part of the crawler's code. -/

/-- Numeric value of a hexadecimal digit. -/
def hexVal (c : Char) : Nat :=
  if c.isDigit then c.toNat - 48
  else if 'a' ≤ c ∧ c ≤ 'f' then c.toNat - 87
  else if 'A' ≤ c ∧ c ≤ 'F' then c.toNat - 55
  else 0

/-- Whether a character is a hexadecimal digit. -/
def isHexDigitChar (c : Char) : Bool :=
  c.isDigit || ('a' ≤ c && c ≤ 'f') || ('A' ≤ c && c ≤ 'F')

/-- Percent-decoding of a character list (`%XY` becomes the character with
code `0xXY`; a malformed escape is kept verbatim). -/
def percentDecode : List Char → List Char
  | [] => []
  | c :: rest =>
    if c = '%' then
      match rest with
      | h1 :: h2 :: rest2 =>
        if isHexDigitChar h1 && isHexDigitChar h2 then
          Char.ofNat (16 * hexVal h1 + hexVal h2) :: percentDecode rest2
        else '%' :: percentDecode (h1 :: h2 :: rest2)
      | short => '%' :: percentDecode short
    else c :: percentDecode rest
termination_by l => l.length
decreasing_by all_goals (simp; try omega)

/-- The scheme component of a URL. -/
def urlScheme (url : String) : String := ⟨(urlparse url.data).scheme⟩

/-- The host (network location) component of a URL. -/
def urlHost (url : String) : String := ⟨(urlparse url.data).netloc⟩

/-- The percent-decoded path component of a URL. -/
def decodedPath (url : String) : String :=
  ⟨percentDecode (urlparse url.data).path⟩

/-! ## Concrete worlds used to instantiate the theorems -/

/-- A world where every HTTP request raises a network error. -/
def failWorld : World :=
  { http := fun _ => .failure "network unreachable",
    hrefs := fun _ => .ok [], urljoin := fun _ href => href, dt := fun _ => 0 }

/-- A world where every page is served as HTML with no links. -/
def pageWorld : World :=
  { http := fun _ => .response 200 "text/html; charset=utf-8" "<html></html>",
    hrefs := fun _ => .ok [], urljoin := fun _ href => href, dt := fun _ => 0 }

/-- A world where every page links to one in-scope page, one out-of-scope
page and one fragment variant. -/
def linkWorld : World :=
  { http := fun _ => .response 200 "text/html" "<page>",
    hrefs := fun _ => .ok ["https://kotlinlang.org/docs/a",
      "https://kotlinlang.org/blog/x", "https://kotlinlang.org/docs/b#frag"],
    urljoin := fun _ href => href, dt := fun _ => 0 }

/-- The coordinator invariant, maintained by every iteration of the crawl
loop: the discovered set is exactly visited ∪ pending; it contains the
seeds, is closed under the out-links of every visited URL, only contains
URLs reachable from the seeds, and (seeds apart) only outputs of the
admission filter; the instrumentation logs mirror the discovered and
visited sets; the dispatch log is duplicate-free; and the elapsed clock is
the sum of the per-iteration increments. -/
structure CrawlInv (w : World) (seeds : List String) (s : CrawlState) : Prop where
  links_eq : s.all_links = s.visited ∪ s.to_visit.toFinset
  seeds_sub : seeds.toFinset ⊆ s.all_links
  visited_closed : ∀ u ∈ s.visited, ∀ v ∈ outLinks w u, v ∈ s.all_links
  reach : ∀ u ∈ s.all_links, Reachable w seeds u
  filtered : ∀ u ∈ s.all_links, u ∈ seeds ∨ ∃ raw, is_valid_url raw = some u
  qlog_set : s.queuedLog.toFinset = s.all_links
  flog_set : s.fetchedLog.toFinset = s.visited
  flog_nodup : s.fetchedLog.Nodup
  elapsed_eq : s.elapsed = (Finset.range s.iter).sum w.dt

/-! ## Properties of the dequeue loop -/

theorem popBatch_nil (maxC : Nat) (visited : Finset String) (acc : List String) :
    popBatch maxC visited [] acc = (acc, visited, []) := rfl

theorem popBatch_cons (maxC : Nat) (visited : Finset String) (u : String)
    (rest acc : List String) :
    popBatch maxC visited (u :: rest) acc =
      if acc.length < maxC then
        if u ∈ visited then popBatch maxC visited rest acc
        else popBatch maxC (insert u visited) rest (acc ++ [u])
      else (acc, visited, u :: rest) := rfl

/-- Everything the dequeue loop guarantees: the batch extends the
accumulator by some `pre` of fresh, pairwise-distinct queue elements, all of
which are marked visited; the union visited ∪ queue is preserved; leftover
queue elements come from the queue; and (below the concurrency bound) an
empty batch means the queue was consumed entirely. -/
theorem popBatch_spec (maxC : Nat) (queue : List String) :
    ∀ (visited : Finset String) (acc : List String),
    ∃ pre : List String,
      (popBatch maxC visited queue acc).1 = acc ++ pre ∧
      (popBatch maxC visited queue acc).2.1 = visited ∪ pre.toFinset ∧
      pre.Nodup ∧ (∀ u ∈ pre, u ∉ visited) ∧ (∀ u ∈ pre, u ∈ queue) ∧
      visited ∪ queue.toFinset =
        (popBatch maxC visited queue acc).2.1 ∪
          (popBatch maxC visited queue acc).2.2.toFinset ∧
      (∀ u ∈ (popBatch maxC visited queue acc).2.2, u ∈ queue) ∧
      (acc.length < maxC → pre = [] → (popBatch maxC visited queue acc).2.2 = []) := by
  induction queue with
  | nil =>
    intro visited acc
    exact ⟨[], by simp [popBatch_nil], by simp [popBatch_nil], by simp, by simp,
      by simp, by simp [popBatch_nil], by simp [popBatch_nil],
      fun _ _ => by simp [popBatch_nil]⟩
  | cons u rest ih =>
    intro visited acc
    by_cases hlen : acc.length < maxC
    · by_cases hu : u ∈ visited
      · obtain ⟨pre, h1, h2, h3, h4, h5, h6, h7, h8⟩ := ih visited acc
        have hpop : popBatch maxC visited (u :: rest) acc =
            popBatch maxC visited rest acc := by
          rw [popBatch_cons, if_pos hlen, if_pos hu]
        refine ⟨pre, ?_, ?_, h3, h4, ?_, ?_, ?_, ?_⟩
        · rw [hpop]; exact h1
        · rw [hpop]; exact h2
        · exact fun x hx => List.mem_cons_of_mem u (h5 x hx)
        · rw [hpop, List.toFinset_cons, Finset.union_insert,
            Finset.insert_eq_self.mpr (Finset.mem_union_left _ hu)]
          exact h6
        · rw [hpop]; exact fun x hx => List.mem_cons_of_mem u (h7 x hx)
        · rw [hpop]; exact h8
      · obtain ⟨pre, h1, h2, h3, h4, h5, h6, h7, h8⟩ := ih (insert u visited) (acc ++ [u])
        have hpop : popBatch maxC visited (u :: rest) acc =
            popBatch maxC (insert u visited) rest (acc ++ [u]) := by
          rw [popBatch_cons, if_pos hlen, if_neg hu]
        have hupre : u ∉ pre := fun hmem => (h4 u hmem) (Finset.mem_insert_self u visited)
        refine ⟨u :: pre, ?_, ?_, ?_, ?_, ?_, ?_, ?_, ?_⟩
        · rw [hpop, h1]; simp
        · rw [hpop, h2, List.toFinset_cons, Finset.union_insert, Finset.insert_union]
        · exact List.nodup_cons.mpr ⟨hupre, h3⟩
        · intro x hx
          rcases List.mem_cons.mp hx with hx | hx
          · rw [hx]; exact hu
          · exact fun hxv => (h4 x hx) (Finset.mem_insert_of_mem hxv)
        · intro x hx
          rcases List.mem_cons.mp hx with hx | hx
          · rw [hx]; exact List.mem_cons_self u rest
          · exact List.mem_cons_of_mem u (h5 x hx)
        · rw [hpop, List.toFinset_cons, Finset.union_insert, ← Finset.insert_union]
          exact h6
        · rw [hpop]; exact fun x hx => List.mem_cons_of_mem u (h7 x hx)
        · intro _ habs; exact absurd habs (by simp)
    · have hpop : popBatch maxC visited (u :: rest) acc = (acc, visited, u :: rest) := by
        rw [popBatch_cons, if_neg hlen]
      exact ⟨[], by rw [hpop]; simp, by rw [hpop]; simp, by simp, by simp, by simp,
        by rw [hpop], by rw [hpop]; exact fun x hx => hx,
        fun habs _ => absurd habs hlen⟩

/-! ## Properties of the result-merging loop -/

theorem mergeResults_nil (all : Finset String) (queue log : List String) :
    mergeResults [] all queue log = (all, queue, log) := rfl

theorem mergeResults_error (e : String) (rest : List (Except String (List String)))
    (all : Finset String) (queue log : List String) :
    mergeResults (Except.error e :: rest) all queue log =
      mergeResults rest all queue log := rfl

theorem mergeResults_ok (r : List String) (rest : List (Except String (List String)))
    (all : Finset String) (queue log : List String) :
    mergeResults (Except.ok r :: rest) all queue log =
      if r = [] then mergeResults rest all queue log
      else mergeResults rest (all ∪ (r.filter (fun u => u ∉ all)).toFinset)
        (queue ++ r.filter (fun u => u ∉ all))
        (log ++ r.filter (fun u => u ∉ all)) := rfl

/-- Everything the merging loop guarantees: `all_links` grows by exactly the
fresh URLs `ext` that get appended (in the same order) to both the queue and
the instrumentation log; `ext` is duplicate-free, disjoint from the old
`all_links`, drawn from the successful results, and every successful result
ends up inside the new `all_links`. -/
theorem mergeResults_spec (results : List (Except String (List String))) :
    (∀ r, Except.ok r ∈ results → r.Nodup) →
    ∀ (all : Finset String) (queue log : List String),
    ∃ ext : List String,
      (mergeResults results all queue log).1 = all ∪ ext.toFinset ∧
      (mergeResults results all queue log).2.1 = queue ++ ext ∧
      (mergeResults results all queue log).2.2 = log ++ ext ∧
      ext.Nodup ∧ (∀ u ∈ ext, u ∉ all) ∧
      (∀ u ∈ ext, ∃ r : List String, Except.ok r ∈ results ∧ u ∈ r) ∧
      (∀ r : List String, Except.ok r ∈ results →
        ∀ u ∈ r, u ∈ all ∪ ext.toFinset) := by
  induction results with
  | nil =>
    intro _ all queue log
    refine ⟨[], by simp [mergeResults_nil], by simp [mergeResults_nil],
      by simp [mergeResults_nil], by simp, by simp, by simp, ?_⟩
    intro r hr
    exact absurd hr (List.not_mem_nil _)
  | cons hd rest ih =>
    intro hnd all queue log
    match hd with
    | .error e =>
      obtain ⟨ext, h1, h2, h3, h4, h5, h6, h7⟩ :=
        ih (fun r0 hr0 => hnd r0 (List.mem_cons_of_mem _ hr0)) all queue log
      rw [mergeResults_error]
      refine ⟨ext, h1, h2, h3, h4, h5, ?_, ?_⟩
      · intro u hu
        obtain ⟨r, hr, hur⟩ := h6 u hu
        exact ⟨r, List.mem_cons_of_mem _ hr, hur⟩
      · intro r hr
        rcases List.mem_cons.mp hr with hr | hr
        · exact absurd hr (by simp)
        · exact h7 r hr
    | .ok r =>
      by_cases hr : r = []
      · obtain ⟨ext, h1, h2, h3, h4, h5, h6, h7⟩ :=
          ih (fun r0 hr0 => hnd r0 (List.mem_cons_of_mem _ hr0)) all queue log
        rw [mergeResults_ok, if_pos hr]
        refine ⟨ext, h1, h2, h3, h4, h5, ?_, ?_⟩
        · intro u hu
          obtain ⟨r0, hr0, hur0⟩ := h6 u hu
          exact ⟨r0, List.mem_cons_of_mem _ hr0, hur0⟩
        · intro r0 hr0
          rcases List.mem_cons.mp hr0 with hr0 | hr0
          · intro u hu
            rw [Except.ok.injEq] at hr0
            rw [hr0, hr] at hu
            exact absurd hu (List.not_mem_nil u)
          · exact h7 r0 hr0
      · obtain ⟨ext, h1, h2, h3, h4, h5, h6, h7⟩ :=
          ih (fun r0 hr0 => hnd r0 (List.mem_cons_of_mem _ hr0))
            (all ∪ (r.filter (fun u => u ∉ all)).toFinset)
            (queue ++ r.filter (fun u => u ∉ all))
            (log ++ r.filter (fun u => u ∉ all))
        rw [mergeResults_ok, if_neg hr]
        have hrnd : r.Nodup := hnd r (List.mem_cons_self _ _)
        have hnewnd : (r.filter (fun u => u ∉ all)).Nodup := hrnd.filter _
        refine ⟨r.filter (fun u => u ∉ all) ++ ext, ?_, ?_, ?_, ?_, ?_, ?_, ?_⟩
        · rw [h1, List.toFinset_append, Finset.union_assoc]
        · rw [h2, List.append_assoc]
        · rw [h3, List.append_assoc]
        · refine List.Nodup.append hnewnd h4 ?_
          intro x hx hx2
          exact (h5 x hx2) (Finset.mem_union_right _ (List.mem_toFinset.mpr hx))
        · intro u hu
          rcases List.mem_append.mp hu with hu | hu
          · exact of_decide_eq_true (List.mem_filter.mp hu).2
          · exact fun huall => (h5 u hu) (Finset.mem_union_left _ huall)
        · intro u hu
          rcases List.mem_append.mp hu with hu | hu
          · exact ⟨r, List.mem_cons_self _ _, (List.mem_filter.mp hu).1⟩
          · obtain ⟨r0, hr0, hur0⟩ := h6 u hu
            exact ⟨r0, List.mem_cons_of_mem _ hr0, hur0⟩
        · intro r0 hr0 u hu
          rw [List.toFinset_append, ← Finset.union_assoc]
          rcases List.mem_cons.mp hr0 with hr0 | hr0
          · rw [Except.ok.injEq] at hr0
            subst hr0
            by_cases huall : u ∈ all
            · exact Finset.mem_union_left _ (Finset.mem_union_left _ huall)
            · refine Finset.mem_union_left _ (Finset.mem_union_right _ ?_)
              exact List.mem_toFinset.mpr
                (List.mem_filter.mpr ⟨hu, decide_eq_true huall⟩)
          · exact h7 r0 hr0 u hu

/-! ## Properties of `process_url` and `outLinks` -/

/-- A successful dispatch returns a duplicate-free subset of the URL's
admissible out-links, and covers them all up to URLs already visited. -/
theorem process_url_ok (w : World) (vis : Finset String) (u : String)
    (r : List String) (h : process_url w vis u = .ok r) :
    (∀ x ∈ r, x ∈ outLinks w u) ∧ (∀ x ∈ outLinks w u, x ∈ r ∨ x ∈ vis) ∧
      r.Nodup := by
  cases hf : fetch_page w u with
  | none =>
    simp only [process_url, hf, Except.ok.injEq] at h
    simp [outLinks, hf, ← h]
  | some html =>
    by_cases hh : html = ""
    · simp only [process_url, hf, hh, if_pos, Except.ok.injEq] at h
      simp [outLinks, hf, hh, ← h]
    · cases hhr : w.hrefs html with
      | error e =>
        simp [process_url, hf, if_neg hh, extract_links, hhr] at h
      | ok hs =>
        simp only [process_url, hf, if_neg hh, extract_links, hhr,
          Except.ok.injEq] at h
        simp only [outLinks, hf, if_neg hh, hhr]
        refine ⟨?_, ?_, ?_⟩
        · intro x hx
          rw [← h] at hx
          exact (List.mem_filter.mp (List.mem_dedup.mp hx)).1
        · intro x hx
          by_cases hv : x ∈ vis
          · exact Or.inr hv
          · refine Or.inl ?_
            rw [← h]
            exact List.mem_dedup.mpr (List.mem_filter.mpr ⟨hx, by simp [hv]⟩)
        · rw [← h]
          exact List.nodup_dedup _

/-- Every successful batch result is duplicate-free. -/
theorem results_nodup (w : World) (vis : Finset String) (batch : List String) :
    ∀ r, Except.ok r ∈ batch.map (process_url w vis) → r.Nodup := by
  intro r hr
  obtain ⟨u, _, hu⟩ := List.mem_map.mp hr
  exact (process_url_ok w vis u r hu).2.2

/-- A dispatch that raises (extraction failure) is a dispatch of a URL whose
out-link contribution is empty. -/
theorem process_url_error (w : World) (vis : Finset String) (u e : String)
    (h : process_url w vis u = .error e) : outLinks w u = [] := by
  cases hf : fetch_page w u with
  | none => simp [process_url, hf] at h
  | some html =>
    by_cases hh : html = ""
    · simp [process_url, hf, hh] at h
    · cases hhr : w.hrefs html with
      | error e2 => simp [outLinks, hf, hh, hhr]
      | ok hs => simp [process_url, hf, if_neg hh, extract_links, hhr] at h

/-- Every out-link is an output of the admission filter. -/
theorem outLinks_from_filter (w : World) (u x : String)
    (h : x ∈ outLinks w u) : ∃ raw, is_valid_url raw = some x := by
  cases hf : fetch_page w u with
  | none => simp [outLinks, hf] at h
  | some html =>
    by_cases hh : html = ""
    · simp [outLinks, hf, hh] at h
    · cases hhr : w.hrefs html with
      | error e => simp [outLinks, hf, hh, hhr] at h
      | ok hs =>
        simp only [outLinks, hf, if_neg hh, hhr] at h
        obtain ⟨raw, _, hraw⟩ := List.mem_filterMap.mp h
        exact ⟨raw, hraw⟩

/-! ## The coordinator invariant -/

/-- The constructor state satisfies the invariant. -/
theorem initState_inv (w : World) (seeds : List String) :
    CrawlInv w seeds (initState seeds) := by
  refine ⟨?_, ?_, ?_, ?_, ?_, ?_, ?_, ?_, ?_⟩
  · simp [initState]
  · simp [initState]
  · intro u hu
    exact absurd hu (Finset.not_mem_empty u)
  · intro u hu
    exact Reachable.seed (List.mem_toFinset.mp hu)
  · intro u hu
    exact Or.inl (List.mem_toFinset.mp hu)
  · rfl
  · rfl
  · exact List.nodup_nil
  · simp [initState]

theorem crawl_step_visited (w : World) (maxC : Nat) (s : CrawlState) :
    (crawl_step w maxC s).visited = (popBatch maxC s.visited s.to_visit []).2.1 := rfl

theorem crawl_step_to_visit (w : World) (maxC : Nat) (s : CrawlState) :
    (crawl_step w maxC s).to_visit =
      (mergeResults ((popBatch maxC s.visited s.to_visit []).1.map
        (process_url w (popBatch maxC s.visited s.to_visit []).2.1))
        s.all_links (popBatch maxC s.visited s.to_visit []).2.2 s.queuedLog).2.1 := rfl

theorem crawl_step_all (w : World) (maxC : Nat) (s : CrawlState) :
    (crawl_step w maxC s).all_links =
      (mergeResults ((popBatch maxC s.visited s.to_visit []).1.map
        (process_url w (popBatch maxC s.visited s.to_visit []).2.1))
        s.all_links (popBatch maxC s.visited s.to_visit []).2.2 s.queuedLog).1 := rfl

theorem crawl_step_qlogEq (w : World) (maxC : Nat) (s : CrawlState) :
    (crawl_step w maxC s).queuedLog =
      (mergeResults ((popBatch maxC s.visited s.to_visit []).1.map
        (process_url w (popBatch maxC s.visited s.to_visit []).2.1))
        s.all_links (popBatch maxC s.visited s.to_visit []).2.2 s.queuedLog).2.2 := rfl

theorem crawl_step_flogEq (w : World) (maxC : Nat) (s : CrawlState) :
    (crawl_step w maxC s).fetchedLog =
      s.fetchedLog ++ (popBatch maxC s.visited s.to_visit []).1 := rfl

theorem crawl_step_elapsed (w : World) (maxC : Nat) (s : CrawlState) :
    (crawl_step w maxC s).elapsed = s.elapsed + w.dt s.iter := rfl

theorem crawl_step_iter (w : World) (maxC : Nat) (s : CrawlState) :
    (crawl_step w maxC s).iter = s.iter + 1 := rfl

/-- The discovered set only grows. -/
theorem crawl_step_mono (w : World) (maxC : Nat) (s : CrawlState) :
    s.all_links ⊆ (crawl_step w maxC s).all_links := by
  obtain ⟨ext, hm1, _, _, _, _, _, _⟩ :=
    mergeResults_spec ((popBatch maxC s.visited s.to_visit []).1.map
      (process_url w (popBatch maxC s.visited s.to_visit []).2.1))
      (results_nodup w _ _)
      s.all_links (popBatch maxC s.visited s.to_visit []).2.2 s.queuedLog
  rw [crawl_step_all, hm1]
  exact Finset.subset_union_left

/-- Every URL in the discovered set after a step is an old member or an
out-link of an old member. -/
theorem crawl_step_provenance (w : World) (maxC : Nat) (seeds : List String)
    (s : CrawlState) (h : CrawlInv w seeds s) :
    ∀ x ∈ (crawl_step w maxC s).all_links,
      x ∈ s.all_links ∨ ∃ b ∈ s.all_links, x ∈ outLinks w b := by
  obtain ⟨pre, hp1, hp2, hp3, hp4, hp5, hp6, hp7, hp8⟩ :=
    popBatch_spec maxC s.to_visit s.visited []
  obtain ⟨ext, hm1, hm2, hm3, hm4, hm5, hm6, hm7⟩ :=
    mergeResults_spec ((popBatch maxC s.visited s.to_visit []).1.map
      (process_url w (popBatch maxC s.visited s.to_visit []).2.1))
      (results_nodup w _ _)
      s.all_links (popBatch maxC s.visited s.to_visit []).2.2 s.queuedLog
  rw [List.nil_append] at hp1
  intro x hx
  rw [crawl_step_all, hm1] at hx
  rcases Finset.mem_union.mp hx with hx | hx
  · exact Or.inl hx
  · rw [List.mem_toFinset] at hx
    obtain ⟨r, hrmem, hxr⟩ := hm6 x hx
    obtain ⟨b, hb, hbr⟩ := List.mem_map.mp hrmem
    refine Or.inr ⟨b, ?_, (process_url_ok w _ b r hbr).1 x hxr⟩
    rw [hp1] at hb
    rw [h.links_eq]
    exact Finset.mem_union_right _ (List.mem_toFinset.mpr (hp5 b hb))

/-- One crawl iteration preserves the coordinator invariant. -/
theorem crawl_step_inv (w : World) (maxC : Nat) (seeds : List String)
    (s : CrawlState) (h : CrawlInv w seeds s) :
    CrawlInv w seeds (crawl_step w maxC s) := by
  obtain ⟨pre, hp1, hp2, hp3, hp4, hp5, hp6, hp7, hp8⟩ :=
    popBatch_spec maxC s.to_visit s.visited []
  obtain ⟨ext, hm1, hm2, hm3, hm4, hm5, hm6, hm7⟩ :=
    mergeResults_spec ((popBatch maxC s.visited s.to_visit []).1.map
      (process_url w (popBatch maxC s.visited s.to_visit []).2.1))
      (results_nodup w _ _)
      s.all_links (popBatch maxC s.visited s.to_visit []).2.2 s.queuedLog
  rw [List.nil_append] at hp1
  have hvis_all : (popBatch maxC s.visited s.to_visit []).2.1 ⊆ s.all_links := by
    rw [hp2, h.links_eq]
    intro x hx
    rcases Finset.mem_union.mp hx with hx | hx
    · exact Finset.mem_union_left _ hx
    · rw [List.mem_toFinset] at hx
      exact Finset.mem_union_right _ (List.mem_toFinset.mpr (hp5 x hx))
  refine ⟨?_, ?_, ?_, ?_, ?_, ?_, ?_, ?_, ?_⟩
  · -- links_eq
    rw [crawl_step_all, crawl_step_visited, crawl_step_to_visit, hm1, hm2,
      List.toFinset_append, ← Finset.union_assoc, ← hp6, ← h.links_eq]
  · -- seeds_sub
    rw [crawl_step_all, hm1]
    exact h.seeds_sub.trans Finset.subset_union_left
  · -- visited_closed
    intro u hu v hv
    rw [crawl_step_visited, hp2] at hu
    rw [crawl_step_all, hm1]
    rcases Finset.mem_union.mp hu with hu | hu
    · exact Finset.mem_union_left _ (h.visited_closed u hu v hv)
    · rw [List.mem_toFinset, ← hp1] at hu
      cases hpu : process_url w (popBatch maxC s.visited s.to_visit []).2.1 u with
      | error e =>
        rw [process_url_error w _ u e hpu] at hv
        exact absurd hv (List.not_mem_nil v)
      | ok r =>
        rcases (process_url_ok w _ u r hpu).2.1 v hv with hvr | hvv
        · have hrmem : Except.ok r ∈
              (popBatch maxC s.visited s.to_visit []).1.map
                (process_url w (popBatch maxC s.visited s.to_visit []).2.1) :=
            List.mem_map.mpr ⟨u, hu, hpu⟩
          exact hm7 r hrmem v hvr
        · exact Finset.mem_union_left _ (hvis_all hvv)
  · -- reach
    intro u hu
    rcases crawl_step_provenance w maxC seeds s h u hu with hu | ⟨b, hb, hob⟩
    · exact h.reach u hu
    · exact Reachable.step (h.reach b hb) hob
  · -- filtered
    intro u hu
    rcases crawl_step_provenance w maxC seeds s h u hu with hu | ⟨b, _, hob⟩
    · exact h.filtered u hu
    · exact Or.inr (outLinks_from_filter w b u hob)
  · -- qlog_set
    rw [crawl_step_qlogEq, crawl_step_all, hm3, hm1, List.toFinset_append,
      h.qlog_set]
  · -- flog_set
    rw [crawl_step_flogEq, crawl_step_visited, List.toFinset_append,
      h.flog_set, hp1, hp2]
  · -- flog_nodup
    rw [crawl_step_flogEq, hp1]
    refine List.Nodup.append h.flog_nodup hp3 ?_
    intro x hx1 hx2
    exact hp4 x hx2 (by rw [← h.flog_set]; exact List.mem_toFinset.mpr hx1)
  · -- elapsed_eq
    rw [crawl_step_elapsed, crawl_step_iter, Finset.sum_range_succ,
      h.elapsed_eq]

/-- A crawl iteration keeps the queued-URLs log duplicate-free. -/
theorem crawl_step_qlog (w : World) (maxC : Nat) (seeds : List String)
    (s : CrawlState) (h : CrawlInv w seeds s) (hnd : s.queuedLog.Nodup) :
    (crawl_step w maxC s).queuedLog.Nodup := by
  obtain ⟨ext, hm1, hm2, hm3, hm4, hm5, hm6, hm7⟩ :=
    mergeResults_spec ((popBatch maxC s.visited s.to_visit []).1.map
      (process_url w (popBatch maxC s.visited s.to_visit []).2.1))
      (results_nodup w _ _)
      s.all_links (popBatch maxC s.visited s.to_visit []).2.2 s.queuedLog
  rw [crawl_step_qlogEq, hm3]
  refine List.Nodup.append hnd hm4 ?_
  intro x hx1 hx2
  exact hm5 x hx2 (by rw [← h.qlog_set]; exact List.mem_toFinset.mpr hx1)

/-- A crawl iteration stays inside any set `S` that contains the discovered
set and is closed under out-links. -/
theorem crawl_step_bound (w : World) (maxC : Nat) (seeds : List String)
    (S : Finset String) (s : CrawlState) (h : CrawlInv w seeds s)
    (hsub : s.all_links ⊆ S)
    (hclosed : ∀ u ∈ S, ∀ v ∈ outLinks w u, v ∈ S) :
    (crawl_step w maxC s).all_links ⊆ S := by
  intro x hx
  rcases crawl_step_provenance w maxC seeds s h x hx with hx | ⟨b, hb, hob⟩
  · exact hsub hx
  · exact hclosed b (hsub hb) x hob

/-- A crawl iteration with a nonempty batch strictly grows the visited set. -/
theorem crawl_step_card (w : World) (maxC : Nat) (s : CrawlState)
    (hne : (popBatch maxC s.visited s.to_visit []).1 ≠ []) :
    s.visited.card < (crawl_step w maxC s).visited.card := by
  obtain ⟨pre, hp1, hp2, hp3, hp4, hp5, hp6, hp7, hp8⟩ :=
    popBatch_spec maxC s.to_visit s.visited []
  rw [List.nil_append] at hp1
  rw [crawl_step_visited, hp2]
  have hprene : pre ≠ [] := by rw [← hp1]; exact hne
  obtain ⟨x, hx⟩ := List.exists_mem_of_ne_nil pre hprene
  refine Finset.card_lt_card ?_
  rw [Finset.ssubset_iff_of_subset Finset.subset_union_left]
  exact ⟨x, Finset.mem_union_right _ (List.mem_toFinset.mpr hx), hp4 x hx⟩

/-- The `break` exit (empty batch) preserves the coordinator invariant. -/
theorem break_state_inv (w : World) (maxC : Nat) (seeds : List String)
    (s : CrawlState) (h : CrawlInv w seeds s)
    (hb : (popBatch maxC s.visited s.to_visit []).1 = []) :
    CrawlInv w seeds
      { s with visited := (popBatch maxC s.visited s.to_visit []).2.1,
               to_visit := (popBatch maxC s.visited s.to_visit []).2.2 } := by
  obtain ⟨pre, hp1, hp2, hp3, hp4, hp5, hp6, hp7, hp8⟩ :=
    popBatch_spec maxC s.to_visit s.visited []
  rw [List.nil_append] at hp1
  have hpre : pre = [] := by rw [← hp1]; exact hb
  have hvis : (popBatch maxC s.visited s.to_visit []).2.1 = s.visited := by
    rw [hp2, hpre]
    simp
  refine ⟨?_, h.seeds_sub, ?_, h.reach, h.filtered, h.qlog_set, ?_, h.flog_nodup, h.elapsed_eq⟩
  · show s.all_links = _ ∪ _
    rw [h.links_eq, hp6]
  · intro u hu v hv
    rw [hvis] at hu
    exact h.visited_closed u hu v hv
  · show s.fetchedLog.toFinset = _
    rw [h.flog_set, hvis]

/-! ## Properties of the crawl loop -/

theorem crawl_loop_zero (w : World) (maxC : Nat) (s : CrawlState) :
    crawl_loop w maxC 0 s = none := rfl

theorem crawl_loop_succ (w : World) (maxC n : Nat) (s : CrawlState) :
    crawl_loop w maxC (n + 1) s =
      if s.to_visit = [] ∨ BUDGET ≤ s.elapsed then some s
      else if (popBatch maxC s.visited s.to_visit []).1 = [] then
        some { s with visited := (popBatch maxC s.visited s.to_visit []).2.1,
                      to_visit := (popBatch maxC s.visited s.to_visit []).2.2 }
      else crawl_loop w maxC n (crawl_step w maxC s) := rfl

/-- Generic loop-invariant principle for the crawl loop: a predicate
preserved by `crawl_step` and by the `break` exit holds in any state the
loop returns. -/
theorem crawl_loop_pres (w : World) (maxC : Nat) (P : CrawlState → Prop)
    (hstep : ∀ s, P s → P (crawl_step w maxC s))
    (hbreak : ∀ s, P s → (popBatch maxC s.visited s.to_visit []).1 = [] →
      P { s with visited := (popBatch maxC s.visited s.to_visit []).2.1,
                 to_visit := (popBatch maxC s.visited s.to_visit []).2.2 }) :
    ∀ (n : Nat) (s final : CrawlState), P s →
      crawl_loop w maxC n s = some final → P final := by
  intro n
  induction n with
  | zero =>
    intro s final _ hc
    rw [crawl_loop_zero] at hc
    exact absurd hc (by simp)
  | succ n ih =>
    intro s final hs hc
    rw [crawl_loop_succ] at hc
    by_cases hcond : s.to_visit = [] ∨ BUDGET ≤ s.elapsed
    · rw [if_pos hcond] at hc
      obtain rfl := Option.some.inj hc
      exact hs
    · rw [if_neg hcond] at hc
      by_cases hb : (popBatch maxC s.visited s.to_visit []).1 = []
      · rw [if_pos hb] at hc
        obtain rfl := Option.some.inj hc
        exact hbreak s hs hb
      · rw [if_neg hb] at hc
        exact ih (crawl_step w maxC s) final (hstep s hs) hc

/-- The loop preserves the coordinator invariant. -/
theorem crawl_loop_inv (w : World) (maxC : Nat) (seeds : List String)
    (n : Nat) (s final : CrawlState) (hs : CrawlInv w seeds s)
    (hc : crawl_loop w maxC n s = some final) : CrawlInv w seeds final :=
  crawl_loop_pres w maxC (CrawlInv w seeds)
    (fun s hs => crawl_step_inv w maxC seeds s hs)
    (fun s hs hb => break_state_inv w maxC seeds s hs hb) n s final hs hc

/-- Totality: below the time budget, with a positive concurrency bound and
a closed bounding set `S`, the loop exits with an empty queue within
`card S + 1 - card visited` iterations. -/
theorem crawl_loop_total (w : World) (maxC : Nat) (seeds : List String)
    (S : Finset String) (hmax : 0 < maxC)
    (hclosed : ∀ u ∈ S, ∀ v ∈ outLinks w u, v ∈ S)
    (hT : ∀ m : Nat, (Finset.range m).sum w.dt < BUDGET) :
    ∀ (k : Nat) (s : CrawlState), CrawlInv w seeds s → s.all_links ⊆ S →
      S.card < s.visited.card + k →
      ∃ final, crawl_loop w maxC k s = some final ∧ CrawlInv w seeds final ∧
        final.to_visit = [] := by
  intro k
  induction k with
  | zero =>
    intro s hs hsub hcard
    exfalso
    have hvs : s.visited ⊆ S := by
      refine Finset.Subset.trans ?_ hsub
      rw [hs.links_eq]
      exact Finset.subset_union_left
    have := Finset.card_le_card hvs
    omega
  | succ k ih =>
    intro s hs hsub hcard
    by_cases hq : s.to_visit = []
    · refine ⟨s, ?_, hs, hq⟩
      rw [crawl_loop_succ, if_pos (Or.inl hq)]
    · have helapsed : s.elapsed < BUDGET := by
        rw [hs.elapsed_eq]
        exact hT s.iter
      have hcond : ¬(s.to_visit = [] ∨ BUDGET ≤ s.elapsed) := by
        push_neg
        exact ⟨hq, helapsed⟩
      by_cases hb : (popBatch maxC s.visited s.to_visit []).1 = []
      · -- `break`: with a positive bound, an empty batch means the queue
        -- was fully consumed (every popped URL was already visited)
        obtain ⟨pre, hp1, hp2, hp3, hp4, hp5, hp6, hp7, hp8⟩ :=
          popBatch_spec maxC s.to_visit s.visited []
        rw [List.nil_append] at hp1
        have hpre : pre = [] := by rw [← hp1]; exact hb
        have hqnil : (popBatch maxC s.visited s.to_visit []).2.2 = [] :=
          hp8 (by simpa using hmax) hpre
        refine ⟨_, ?_, break_state_inv w maxC seeds s hs hb, hqnil⟩
        rw [crawl_loop_succ, if_neg hcond, if_pos hb]
      · have hstep := crawl_step_inv w maxC seeds s hs
        have hsub2 := crawl_step_bound w maxC seeds S s hs hsub hclosed
        have hcard2 : S.card < (crawl_step w maxC s).visited.card + k := by
          have := crawl_step_card w maxC s hb
          omega
        obtain ⟨final, hrun, hfi, hfq⟩ := ih (crawl_step w maxC s) hstep hsub2 hcard2
        refine ⟨final, ?_, hfi, hfq⟩
        rw [crawl_loop_succ, if_neg hcond, if_neg hb]
        exact hrun

/-! ## Parsing lemmas for URLs on the crawled origin -/

theorem urlparse_kotlin_scheme (r : List Char) :
    (urlparse ("https://kotlinlang.org/".data ++ r)).scheme = "https".data := rfl

theorem urlparse_kotlin_netloc (r : List Char) :
    (urlparse ("https://kotlinlang.org/".data ++ r)).netloc =
      "kotlinlang.org".data := rfl

theorem urlparse_kotlin_path (r : List Char) :
    (urlparse ("https://kotlinlang.org/".data ++ r)).path =
      (splitParams ('/' :: ((r.takeWhile (· != '#')).takeWhile (· != '?')))).1 := rfl

theorem takeWhile_to_stop {p : Char → Bool} (A B : List Char) (c : Char)
    (hA : ∀ a ∈ A, p a = true) (hc : p c = false) :
    (A ++ c :: B).takeWhile p = A := by
  rw [List.takeWhile_append_of_pos hA,
    List.takeWhile_cons_of_neg (by simp [hc]), List.append_nil]

theorem exists_last_split (c : Char) (l : List Char) (h : c ∈ l) :
    ∃ l₁ l₂, l = l₁ ++ c :: l₂ ∧ c ∉ l₂ := by
  induction l with
  | nil => exact absurd h (List.not_mem_nil c)
  | cons a rest ih =>
    by_cases hc : c ∈ rest
    · obtain ⟨l₁, l₂, heq, hnot⟩ := ih hc
      exact ⟨a :: l₁, l₂, by rw [List.cons_append, ← heq], hnot⟩
    · have hca : c = a := by
        rcases List.mem_cons.mp h with h1 | h1
        · exact h1
        · exact absurd h1 hc
      exact ⟨[], rest, by rw [List.nil_append, hca], hc⟩

/-- Splitting params off a path that starts with a slash-led,
slash-free and semicolon-free segment keeps that segment as a prefix. -/
theorem splitParams_keep (Q t : List Char) (hQs : '/' ∉ Q) (hQsemi : ';' ∉ Q) :
    ∃ rest, (splitParams (('/' :: Q) ++ t)).1 = ('/' :: Q) ++ rest := by
  by_cases hslash : '/' ∈ t
  · obtain ⟨t₃, t₄, ht, ht₄⟩ := exists_last_split '/' t hslash
    subst ht
    have hseg : lastSeg (('/' :: Q) ++ (t₃ ++ '/' :: t₄)) = t₄ := by
      unfold lastSeg
      have hrev : (('/' :: Q) ++ (t₃ ++ '/' :: t₄)).reverse =
          t₄.reverse ++ '/' :: (t₃.reverse ++ (Q.reverse ++ ['/'])) := by
        simp
      rw [hrev, takeWhile_to_stop _ _ _ ?hall (by simp), List.reverse_reverse]
      case hall =>
        intro a ha
        rw [List.mem_reverse] at ha
        exact bne_iff_ne.mpr (fun heq => ht₄ (heq ▸ ha))
    unfold splitParams
    rw [hseg]
    by_cases hsemi : t₄.contains ';'
    · rw [if_pos hsemi]
      have hlen : (('/' :: Q) ++ (t₃ ++ '/' :: t₄)).length - t₄.length =
          (('/' :: Q) ++ t₃ ++ ['/']).length := by
        simp
        omega
      have hassoc : ('/' :: Q) ++ (t₃ ++ '/' :: t₄) =
          (('/' :: Q) ++ t₃ ++ ['/']) ++ t₄ := by simp
      rw [hlen, hassoc, List.take_left]
      exact ⟨t₃ ++ ['/'] ++ t₄.takeWhile (· != ';'), by simp⟩
    · rw [if_neg hsemi]
      exact ⟨t₃ ++ '/' :: t₄, rfl⟩
  · have hseg : lastSeg (('/' :: Q) ++ t) = Q ++ t := by
      unfold lastSeg
      have hrev : (('/' :: Q) ++ t).reverse =
          (t.reverse ++ Q.reverse) ++ '/' :: [] := by simp
      rw [hrev, takeWhile_to_stop _ _ _ ?hall (by simp)]
      · simp
      case hall =>
        intro a ha
        rcases List.mem_append.mp ha with ha | ha
        · rw [List.mem_reverse] at ha
          exact bne_iff_ne.mpr (fun heq => hslash (heq ▸ ha))
        · rw [List.mem_reverse] at ha
          exact bne_iff_ne.mpr (fun heq => hQs (heq ▸ ha))
    unfold splitParams
    rw [hseg]
    by_cases hsemi : (Q ++ t).contains ';'
    · rw [if_pos hsemi]
      have hlen : (('/' :: Q) ++ t).length - (Q ++ t).length = 1 := by
        simp
      have htake : (('/' :: Q) ++ t).take 1 = ['/'] := by
        rw [List.cons_append]
        rfl
      rw [hlen, htake]
      have hQtw : (Q ++ t).takeWhile (· != ';') = Q ++ t.takeWhile (· != ';') :=
        List.takeWhile_append_of_pos
          (fun a ha => bne_iff_ne.mpr (fun heq => hQsemi (heq ▸ ha)))
      rw [hQtw]
      exact ⟨t.takeWhile (· != ';'), by simp⟩
    · rw [if_neg hsemi]
      exact ⟨t, rfl⟩

/-! ## Percent-decoding and fragment lemmas -/

theorem percentDecode_cons_ne (c : Char) (l : List Char) (hc : c ≠ '%') :
    percentDecode (c :: l) = c :: percentDecode l := by
  rw [percentDecode.eq_def]
  simp [hc]

theorem percentDecode_lit (P l : List Char) (hP : '%' ∉ P) :
    percentDecode (P ++ l) = P ++ percentDecode l := by
  induction P with
  | nil => simp
  | cons c Q ih =>
    rw [List.cons_append,
      percentDecode_cons_ne c _ (fun h => hP (h ▸ List.mem_cons_self c Q)),
      ih (fun hm => hP (List.mem_cons_of_mem c hm)), List.cons_append]

theorem takeWhile_all (p : Char → Bool) (l : List Char)
    (h : ∀ a ∈ l, p a = true) : l.takeWhile p = l := by
  induction l with
  | nil => rfl
  | cons a rest ih =>
    rw [List.takeWhile_cons_of_pos (h a (List.mem_cons_self a rest)),
      ih (fun x hx => h x (List.mem_cons_of_mem a hx))]

theorem isPrefixOf_hash (P : List Char) : ∀ (l f : List Char),
    '#' ∉ P → '#' ∉ l →
    P.isPrefixOf (l ++ '#' :: f) = P.isPrefixOf l := by
  induction P with
  | nil => intro l f _ _; simp
  | cons a P ih =>
    intro l f hP hl
    cases l with
    | nil =>
      have ha : a ≠ '#' := fun h => hP (h ▸ List.mem_cons_self a P)
      simp [List.isPrefixOf_cons₂, ha]
    | cons b l2 =>
      rw [List.cons_append, List.isPrefixOf_cons₂, List.isPrefixOf_cons₂,
        ih l2 f (fun hm => hP (List.mem_cons_of_mem a hm))
          (fun hm => hl (List.mem_cons_of_mem b hm))]

theorem pyStartswith_iff (s p : String) :
    pyStartswith s p = true ↔ p.data <+: s.data := by
  unfold pyStartswith
  exact List.isPrefixOf_iff_prefix

theorem data_hash_append (u f : String) :
    (u ++ "#" ++ f).data = u.data ++ '#' :: f.data := by
  rw [String.data_append, String.data_append]
  have h1 : "#".data = ['#'] := rfl
  rw [h1, List.append_assoc, List.singleton_append]

theorem pyStartswith_hash (u f P : String) (hu : '#' ∉ u.data)
    (hP : '#' ∉ P.data) :
    pyStartswith (u ++ "#" ++ f) P = pyStartswith u P := by
  unfold pyStartswith
  rw [data_hash_append, isPrefixOf_hash P.data u.data f.data hP hu]

/-! ## Anatomy of an admission decision -/

/-- What `is_valid_url url = some v` tells us: the three checks passed and
`v` is `url`, fragment-stripped when a fragment was present. -/
theorem is_valid_url_facts (url v : String) (h : is_valid_url url = some v) :
    pyStartswith url "https://kotlinlang.org/" = true ∧
    (pyStartswith url "https://kotlinlang.org/docs" = true ∨
      pyStartswith url "https://kotlinlang.org/api" = true) ∧
    media_extensions.any (fun ext =>
      pyEndswith (pyLower ⟨(urlparse url.data).path⟩) ext) = false ∧
    ((pyHasChar url '#' = true ∧ v = ⟨url.data.takeWhile (· != '#')⟩) ∨
      (pyHasChar url '#' = false ∧ v = url)) := by
  simp only [is_valid_url] at h
  split at h
  · simp at h
  · split at h
    · simp at h
    · split at h
      · simp at h
      · split at h
        · rename_i hc1 hc2 hc3 hc4
          rw [Bool.not_eq_true, Bool.not_eq_false'] at hc1
          rw [Bool.not_eq_true, Bool.not_eq_false'] at hc2
          rw [Bool.not_eq_true] at hc3
          rw [Option.some.injEq] at h
          exact ⟨hc1, Bool.or_eq_true_iff.mp hc2, hc3, Or.inl ⟨hc4, h.symm⟩⟩
        · rename_i hc1 hc2 hc3 hc4
          rw [Bool.not_eq_true, Bool.not_eq_false'] at hc1
          rw [Bool.not_eq_true, Bool.not_eq_false'] at hc2
          rw [Bool.not_eq_true] at hc3
          rw [Bool.not_eq_true] at hc4
          rw [Option.some.injEq] at h
          exact ⟨hc1, Bool.or_eq_true_iff.mp hc2, hc3, Or.inr ⟨hc4, h.symm⟩⟩

/-- And the converse: when the three checks pass, the filter admits. -/
theorem is_valid_url_build (url : String)
    (h1 : pyStartswith url "https://kotlinlang.org/" = true)
    (h2 : pyStartswith url "https://kotlinlang.org/docs" = true ∨
      pyStartswith url "https://kotlinlang.org/api" = true)
    (h3 : media_extensions.any (fun ext =>
      pyEndswith (pyLower ⟨(urlparse url.data).path⟩) ext) = false) :
    is_valid_url url =
      (if pyHasChar url '#' then some ⟨url.data.takeWhile (· != '#')⟩
       else some url) := by
  simp only [is_valid_url, h1, h3, Bool.not_true, Bool.false_eq_true, if_false,
    if_true]
  rcases h2 with h2 | h2 <;> simp [h2]

theorem pyHasChar_iff (s : String) (c : Char) :
    pyHasChar s c = true ↔ c ∈ s.data := by
  unfold pyHasChar List.contains
  exact List.elem_iff

theorem hash_decomp (l : List Char) (h : '#' ∈ l) :
    l = l.takeWhile (· != '#') ++ '#' :: (l.dropWhile (· != '#')).drop 1 := by
  induction l with
  | nil => cases h
  | cons a rest ih =>
    by_cases ha : a = '#'
    · subst ha
      rw [List.takeWhile_cons, List.dropWhile_cons, if_neg (by simp),
        if_neg (by simp)]
      simp
    · have hrest : '#' ∈ rest := by
        rcases List.mem_cons.mp h with h1 | h1
        · exact absurd h1.symm ha
        · exact h1
      rw [List.takeWhile_cons, List.dropWhile_cons,
        if_pos (bne_iff_ne.mpr ha), if_pos (bne_iff_ne.mpr ha),
        List.cons_append, ← ih hrest]

theorem not_mem_takeWhile_hash (l : List Char) :
    '#' ∉ l.takeWhile (· != '#') := by
  intro hm
  have := List.mem_takeWhile_imp hm
  simp at this

/-- The path component ignores everything after the first `'#'` for URLs on
the crawled origin. -/
theorem urlpath_hash (u : String) (f : List Char)
    (hp : "https://kotlinlang.org/".data <+: u.data) (hu : '#' ∉ u.data) :
    (urlparse (u.data ++ '#' :: f)).path = (urlparse u.data).path := by
  obtain ⟨r, hr⟩ := hp
  have hnr : '#' ∉ r := fun hm => hu (by rw [← hr]; exact List.mem_append_right _ hm)
  rw [← hr, List.append_assoc, urlparse_kotlin_path, urlparse_kotlin_path]
  have h1 : (r ++ '#' :: f).takeWhile (· != '#') = r :=
    takeWhile_to_stop r f '#'
      (fun a ha => bne_iff_ne.mpr (fun he => hnr (he ▸ ha))) (by simp)
  have h2 : r.takeWhile (· != '#') = r :=
    takeWhile_all _ r (fun a ha => bne_iff_ne.mpr (fun he => hnr (he ▸ ha)))
  rw [h1, h2]

/-- Appending a fragment to a fragment-free URL does not change the
admission decision (the fragment is stripped). -/
theorem is_valid_url_hash (u f : String) (hu : '#' ∉ u.data) :
    is_valid_url (u ++ "#" ++ f) = is_valid_url u := by
  have hs1 := pyStartswith_hash u f "https://kotlinlang.org/" hu (by decide)
  have hs2 := pyStartswith_hash u f "https://kotlinlang.org/docs" hu (by decide)
  have hs3 := pyStartswith_hash u f "https://kotlinlang.org/api" hu (by decide)
  cases hb1 : pyStartswith u "https://kotlinlang.org/" with
  | false =>
    rw [hb1] at hs1
    simp [is_valid_url, hs1, hb1]
  | true =>
    have hpre : "https://kotlinlang.org/".data <+: u.data :=
      (pyStartswith_iff _ _).mp hb1
    have hpath : (urlparse (u ++ "#" ++ f).data).path = (urlparse u.data).path := by
      rw [data_hash_append]
      exact urlpath_hash u f.data hpre hu
    have hhash2 : pyHasChar (u ++ "#" ++ f) '#' = true := by
      rw [pyHasChar_iff, data_hash_append]
      exact List.mem_append_right _ (List.mem_cons_self _ _)
    have hhash1 : pyHasChar u '#' = false := by
      cases hc : pyHasChar u '#' with
      | false => rfl
      | true => exact absurd ((pyHasChar_iff u '#').mp hc) hu
    have hval : (u ++ "#" ++ f).data.takeWhile (· != '#') = u.data := by
      rw [data_hash_append]
      exact takeWhile_to_stop _ _ _
        (fun a ha => bne_iff_ne.mpr (fun he => hu (he ▸ ha))) (by simp)
    have heta : (⟨u.data⟩ : String) = u := rfl
    simp only [is_valid_url, hs1, hs2, hs3, hpath, hhash1, hhash2, hval, heta,
      Bool.not_true, Bool.false_eq_true, if_false, if_true]

/-- Outputs of the admission filter are themselves admitted unchanged. -/
theorem is_valid_url_idem (raw v : String) (h : is_valid_url raw = some v) :
    is_valid_url v = some v := by
  obtain ⟨hc1, hc2, hc3, hcase⟩ := is_valid_url_facts raw v h
  rcases hcase with ⟨hhash, hv⟩ | ⟨hhash, hv⟩
  · have hmem : '#' ∈ raw.data := (pyHasChar_iff raw '#').mp hhash
    have hnv : '#' ∉ v.data := by
      rw [hv]
      exact not_mem_takeWhile_hash raw.data
    have hraw : raw = v ++ "#" ++ ⟨(raw.data.dropWhile (· != '#')).drop 1⟩ := by
      apply String.ext
      rw [data_hash_append, hv]
      exact hash_decomp raw.data hmem
    rw [hraw, is_valid_url_hash v _ hnv] at h
    exact h
  · subst hv
    exact h

/-- Any URL the filter admits has origin exactly `https://kotlinlang.org`
and a decoded path starting with `/docs` or `/api`. -/
theorem is_valid_url_origin (url v : String) (h : is_valid_url url = some v) :
    urlScheme url = "https" ∧ urlHost url = "kotlinlang.org" ∧
    (pyStartswith (decodedPath url) "/docs" = true ∨
      pyStartswith (decodedPath url) "/api" = true) := by
  obtain ⟨hc1, hc2, _, _⟩ := is_valid_url_facts url v h
  obtain ⟨r, hr⟩ := (pyStartswith_iff _ _).mp hc1
  refine ⟨?_, ?_, ?_⟩
  · unfold urlScheme
    rw [← hr, urlparse_kotlin_scheme]
  · unfold urlHost
    rw [← hr, urlparse_kotlin_netloc]
  · have hstep : ∀ (Q : List Char), '#' ∉ Q → '?' ∉ Q → '/' ∉ Q → ';' ∉ Q →
        '%' ∉ Q → ∀ t : List Char,
          ("https://kotlinlang.org/".data ++ (Q ++ t) = url.data) →
        pyStartswith (decodedPath url) ⟨'/' :: Q⟩ = true := by
      intro Q hQh hQq hQs hQsemi hQpct t ht
      unfold decodedPath
      rw [← ht, urlparse_kotlin_path]
      have h1 : (Q ++ t).takeWhile (· != '#') =
          Q ++ t.takeWhile (· != '#') :=
        List.takeWhile_append_of_pos
          (fun a ha => bne_iff_ne.mpr (fun he => hQh (he ▸ ha)))
      have h2 : (Q ++ t.takeWhile (· != '#')).takeWhile (· != '?') =
          Q ++ (t.takeWhile (· != '#')).takeWhile (· != '?') :=
        List.takeWhile_append_of_pos
          (fun a ha => bne_iff_ne.mpr (fun he => hQq (he ▸ ha)))
      rw [h1, h2]
      obtain ⟨rest, hrest⟩ :=
        splitParams_keep Q ((t.takeWhile (· != '#')).takeWhile (· != '?'))
          hQs hQsemi
      rw [show '/' :: (Q ++ (t.takeWhile (· != '#')).takeWhile (· != '?')) =
          ('/' :: Q) ++ (t.takeWhile (· != '#')).takeWhile (· != '?') from rfl,
        hrest]
      have hdec : percentDecode (('/' :: Q) ++ rest) =
          ('/' :: Q) ++ percentDecode rest :=
        percentDecode_lit ('/' :: Q) rest (by
          intro hm
          rcases List.mem_cons.mp hm with hm | hm
          · exact absurd hm.symm (by decide)
          · exact hQpct hm)
      rw [pyStartswith_iff]
      show ('/' :: Q) <+: percentDecode (('/' :: Q) ++ rest)
      rw [hdec]
      exact List.prefix_append _ _
    rcases hc2 with hdocs | hapi
    · refine Or.inl ?_
      obtain ⟨t, ht⟩ := (pyStartswith_iff _ _).mp hdocs
      have ht2 : "https://kotlinlang.org/".data ++ ("docs".data ++ t) =
          url.data := by rw [← ht]; rfl
      exact hstep "docs".data (by decide) (by decide) (by decide) (by decide)
        (by decide) t ht2
    · refine Or.inr ?_
      obtain ⟨t, ht⟩ := (pyStartswith_iff _ _).mp hapi
      have ht2 : "https://kotlinlang.org/".data ++ ("api".data ++ t) =
          url.data := by rw [← ht]; rfl
      exact hstep "api".data (by decide) (by decide) (by decide) (by decide)
        (by decide) t ht2

/-! ## The claims -/

/-- C1: for every finite link graph reachable from the seeds that the time
budget allows to traverse fully (the elapsed wall clock never reaches the
budget), the crawl loop stops with the pending queue empty and the returned
discovered set `all_links` equal to the reachable admissible closure of the
seeds: exactly the URLs obtainable from a seed by repeatedly fetching a
dispatched URL, extracting its links, and admitting them through the
filter. -/
theorem C1_crawl_computes_reachable_closure (w : World) (maxC : Nat)
    (seeds : List String) (S : Finset String) (hmax : 0 < maxC)
    (hseeds : ∀ u ∈ seeds, u ∈ S)
    (hclosed : ∀ u ∈ S, ∀ v ∈ outLinks w u, v ∈ S)
    (hT : ∀ m : Nat, (Finset.range m).sum w.dt < BUDGET) :
    ∃ n final, crawl_loop w maxC n (initState seeds) = some final ∧
      final.to_visit = [] ∧
      ∀ u, u ∈ final.all_links ↔ Reachable w seeds u := by
  obtain ⟨final, hrun, hinv, hq⟩ :=
    crawl_loop_total w maxC seeds S hmax hclosed hT (S.card + 1)
      (initState seeds) (initState_inv w seeds)
      (fun x hx => hseeds x (List.mem_toFinset.mp hx))
      (by simp [initState])
  refine ⟨S.card + 1, final, hrun, hq, ?_⟩
  intro u
  constructor
  · exact hinv.reach u
  · intro hr
    have hall : final.all_links = final.visited := by
      rw [hinv.links_eq, hq]
      simp
    induction hr with
    | seed hu => exact hinv.seeds_sub (List.mem_toFinset.mpr hu)
    | step hru hv ih =>
      rw [hall] at ih
      exact hinv.visited_closed _ ih _ hv

/-- Witness for C1 at a concrete world whose fetches all fail. -/
theorem C1_witness :
    ∃ n final,
      crawl_loop failWorld 1 n (initState ["https://kotlinlang.org/docs/"]) =
        some final ∧ final.to_visit = [] ∧
      ∀ u, u ∈ final.all_links ↔
        Reachable failWorld ["https://kotlinlang.org/docs/"] u :=
  C1_crawl_computes_reachable_closure failWorld 1
    ["https://kotlinlang.org/docs/"] {"https://kotlinlang.org/docs/"}
    (by decide) (by decide) (by decide)
    (by intro m; simp [failWorld, BUDGET])

/-- C5: the crawl loop stops exactly when, checked at the top of an
iteration, the pending queue is empty or the elapsed time reaches the
21000-second budget; with a positive concurrency bound, every exit state
has an empty queue unless the budget was reached. -/
theorem C5_termination_condition :
    (∀ (w : World) (maxC n : Nat) (s final : CrawlState), 0 < maxC →
       crawl_loop w maxC n s = some final →
       (final.to_visit = [] ∨ BUDGET ≤ final.elapsed)) ∧
    (∀ (w : World) (maxC : Nat) (s : CrawlState) (n : Nat),
       (s.to_visit = [] ∨ BUDGET ≤ s.elapsed) →
       crawl_loop w maxC (n + 1) s = some s) := by
  constructor
  · intro w maxC n
    induction n with
    | zero =>
      intro s final _ hc
      rw [crawl_loop_zero] at hc
      exact absurd hc (by simp)
    | succ n ih =>
      intro s final hmax hc
      rw [crawl_loop_succ] at hc
      by_cases hcond : s.to_visit = [] ∨ BUDGET ≤ s.elapsed
      · rw [if_pos hcond] at hc
        obtain rfl := Option.some.inj hc
        exact hcond
      · rw [if_neg hcond] at hc
        by_cases hb : (popBatch maxC s.visited s.to_visit []).1 = []
        · rw [if_pos hb] at hc
          obtain rfl := Option.some.inj hc
          obtain ⟨pre, hp1, _, _, _, _, _, _, hp8⟩ :=
            popBatch_spec maxC s.to_visit s.visited []
          rw [List.nil_append] at hp1
          exact Or.inl (hp8 (by simpa using hmax) (by rw [← hp1]; exact hb))
        · rw [if_neg hb] at hc
          exact ih (crawl_step w maxC s) final hmax hc
  · intro w maxC s n hcond
    rw [crawl_loop_succ, if_pos hcond]

/-- Witness for C5: a finished run has an empty queue, and a loop started
on an exit state stops immediately. -/
theorem C5_witness :
    ((⟨{"https://kotlinlang.org/docs/"}, [], {"https://kotlinlang.org/docs/"},
        0, 1, ["https://kotlinlang.org/docs/"],
        ["https://kotlinlang.org/docs/"]⟩ : CrawlState).to_visit = [] ∨
      BUDGET ≤ (⟨{"https://kotlinlang.org/docs/"}, [],
        {"https://kotlinlang.org/docs/"}, 0, 1,
        ["https://kotlinlang.org/docs/"],
        ["https://kotlinlang.org/docs/"]⟩ : CrawlState).elapsed) ∧
    crawl_loop failWorld 1 1 (initState []) = some (initState []) :=
  ⟨C5_termination_condition.1 failWorld 1 2
      (initState ["https://kotlinlang.org/docs/"]) _ (by decide) (by decide),
    C5_termination_condition.2 failWorld 1 (initState []) 0 (by decide)⟩

/-- C2 counterexample: the claim quantifies over every crawl run, but seeds
enter the discovered set without passing the admission filter, so a crawl
seeded with an off-origin fragment-carrying URL emits it even though the
filter rejects it. -/
theorem C2_counterexample :
    crawl failWorld 1 2 ["https://example.com/a#b"] =
      some {"https://example.com/a#b"} ∧
    is_valid_url "https://example.com/a#b" = none := by
  constructor
  · decide
  · decide

/-- C2 (amended): every URL in the returned discovered set other than a
seed passed the admission filter at the time it was discovered — it is
admitted verbatim by the filter, hence its origin is exactly
`https://kotlinlang.org` and it carries no fragment. -/
theorem C2_nonseed_urls_pass_filter (w : World) (maxC : Nat)
    (seeds : List String) (n : Nat) (final : CrawlState)
    (hrun : crawl_loop w maxC n (initState seeds) = some final) :
    ∀ u ∈ final.all_links, u ∉ seeds →
      is_valid_url u = some u ∧
      urlScheme u = "https" ∧ urlHost u = "kotlinlang.org" ∧
      pyHasChar u '#' = false := by
  have hinv := crawl_loop_inv w maxC seeds n _ final (initState_inv w seeds) hrun
  intro u hu hseed
  rcases hinv.filtered u hu with h | ⟨raw, hraw⟩
  · exact absurd h hseed
  · have hidem := is_valid_url_idem raw u hraw
    obtain ⟨hsch, hhost, _⟩ := is_valid_url_origin u u hidem
    obtain ⟨_, _, _, hcase⟩ := is_valid_url_facts u u hidem
    refine ⟨hidem, hsch, hhost, ?_⟩
    rcases hcase with ⟨hh, hv⟩ | ⟨hh, _⟩
    · exfalso
      have hmem : '#' ∈ u.data := (pyHasChar_iff u '#').mp hh
      have hmem2 : '#' ∈ (⟨u.data.takeWhile (· != '#')⟩ : String).data := by
        rw [← hv]
        exact hmem
      exact not_mem_takeWhile_hash u.data hmem2
    · exact hh

/-- Witness for the amended C2 on a run that actually discovers links. -/
theorem C2_witness :
    is_valid_url "https://kotlinlang.org/docs/a" =
      some "https://kotlinlang.org/docs/a" ∧
    urlScheme "https://kotlinlang.org/docs/a" = "https" ∧
    urlHost "https://kotlinlang.org/docs/a" = "kotlinlang.org" ∧
    pyHasChar "https://kotlinlang.org/docs/a" '#' = false :=
  C2_nonseed_urls_pass_filter linkWorld 10 ["https://kotlinlang.org/docs/"] 3
    (crawl_step linkWorld 10 (crawl_step linkWorld 10
      (initState ["https://kotlinlang.org/docs/"]))) rfl
    "https://kotlinlang.org/docs/a" (by decide) (by decide)

/-- C3: with pairwise-distinct seeds, a URL is appended to the pending
queue at most once across the whole run (the log of queue insertions is
duplicate-free), and the set of ever-queued URLs is exactly the
discovered set `all_links` — the dedup gate checked before insertion. -/
theorem C3_queued_at_most_once (w : World) (maxC : Nat) (seeds : List String)
    (hnd : seeds.Nodup) (n : Nat) (final : CrawlState)
    (hrun : crawl_loop w maxC n (initState seeds) = some final) :
    final.queuedLog.Nodup ∧ final.queuedLog.toFinset = final.all_links := by
  have h := crawl_loop_pres w maxC
    (fun s => CrawlInv w seeds s ∧ s.queuedLog.Nodup)
    (fun s hs => ⟨crawl_step_inv w maxC seeds s hs.1,
      crawl_step_qlog w maxC seeds s hs.1 hs.2⟩)
    (fun s hs hb => ⟨break_state_inv w maxC seeds s hs.1 hb, hs.2⟩)
    n (initState seeds) final ⟨initState_inv w seeds, hnd⟩ hrun
  exact ⟨h.2, h.1.qlog_set⟩

/-- Witness for C3 on the linking world. -/
theorem C3_witness :
    (crawl_step linkWorld 10 (crawl_step linkWorld 10
      (initState ["https://kotlinlang.org/docs/"]))).queuedLog.Nodup ∧
    (crawl_step linkWorld 10 (crawl_step linkWorld 10
      (initState ["https://kotlinlang.org/docs/"]))).queuedLog.toFinset =
    (crawl_step linkWorld 10 (crawl_step linkWorld 10
      (initState ["https://kotlinlang.org/docs/"]))).all_links :=
  C3_queued_at_most_once linkWorld 10 ["https://kotlinlang.org/docs/"]
    (by decide) 3 _ rfl

/-- C4: no URL is dispatched for fetch+extract more than once in a run:
the dispatch log is duplicate-free, and the dispatched URLs are exactly the
visited set (marked at the moment of dequeue). -/
theorem C4_no_duplicate_dispatch (w : World) (maxC : Nat)
    (seeds : List String) (n : Nat) (final : CrawlState)
    (hrun : crawl_loop w maxC n (initState seeds) = some final) :
    final.fetchedLog.Nodup ∧ final.fetchedLog.toFinset = final.visited := by
  have hinv := crawl_loop_inv w maxC seeds n _ final (initState_inv w seeds) hrun
  exact ⟨hinv.flog_nodup, hinv.flog_set⟩

/-- Witness for C4; note the duplicated seed is dispatched only once. -/
theorem C4_witness :
    (⟨{"https://kotlinlang.org/api/"}, [], {"https://kotlinlang.org/api/"},
        0, 1, ["https://kotlinlang.org/api/", "https://kotlinlang.org/api/"],
        ["https://kotlinlang.org/api/"]⟩ : CrawlState).fetchedLog.Nodup ∧
    (⟨{"https://kotlinlang.org/api/"}, [], {"https://kotlinlang.org/api/"},
        0, 1, ["https://kotlinlang.org/api/", "https://kotlinlang.org/api/"],
        ["https://kotlinlang.org/api/"]⟩ : CrawlState).fetchedLog.toFinset =
    (⟨{"https://kotlinlang.org/api/"}, [], {"https://kotlinlang.org/api/"},
        0, 1, ["https://kotlinlang.org/api/", "https://kotlinlang.org/api/"],
        ["https://kotlinlang.org/api/"]⟩ : CrawlState).visited :=
  C4_no_duplicate_dispatch failWorld 2
    ["https://kotlinlang.org/api/", "https://kotlinlang.org/api/"] 2 _
    (by decide)

/-- C6: the admission decision rejects a URL unless its origin (scheme and
host) is exactly `https://kotlinlang.org` and its decoded path begins with
`/docs` or `/api`; in particular `https://other.org/docs/x` (right path,
wrong origin) and `https://kotlinlang.org/blog/x` (right origin, wrong
path) are rejected. -/
theorem C6_admission_scope :
    (∀ url v : String, is_valid_url url = some v →
      urlScheme url = "https" ∧ urlHost url = "kotlinlang.org" ∧
      (pyStartswith (decodedPath url) "/docs" = true ∨
        pyStartswith (decodedPath url) "/api" = true)) ∧
    is_valid_url "https://other.org/docs/x" = none ∧
    is_valid_url "https://kotlinlang.org/blog/x" = none :=
  ⟨fun url v h => is_valid_url_origin url v h, by decide, by decide⟩

/-- Witness for C6 at a concrete admitted URL. -/
theorem C6_witness :
    urlScheme "https://kotlinlang.org/docs/home.html" = "https" ∧
    urlHost "https://kotlinlang.org/docs/home.html" = "kotlinlang.org" ∧
    (pyStartswith (decodedPath "https://kotlinlang.org/docs/home.html")
        "/docs" = true ∨
      pyStartswith (decodedPath "https://kotlinlang.org/docs/home.html")
        "/api" = true) :=
  C6_admission_scope.1 "https://kotlinlang.org/docs/home.html"
    "https://kotlinlang.org/docs/home.html" (by decide)

/-- C7: the admission decision is invariant under the fragment — appending
any fragment to a fragment-free URL yields the same result (so two URLs
differing only in their fragment are admitted identically), and an
admitted URL never contains a `'#'` character. -/
theorem C7_fragment_equivalence :
    (∀ u f : String, '#' ∉ u.data →
      is_valid_url (u ++ "#" ++ f) = is_valid_url u) ∧
    (∀ url v : String, is_valid_url url = some v →
      pyHasChar v '#' = false) := by
  constructor
  · exact fun u f hu => is_valid_url_hash u f hu
  · intro url v h
    obtain ⟨_, _, _, hcase⟩ := is_valid_url_facts url v h
    cases hhash : pyHasChar v '#' with
    | false => rfl
    | true =>
      exfalso
      have hmem := (pyHasChar_iff v '#').mp hhash
      rcases hcase with ⟨_, hv⟩ | ⟨hne, hv⟩
      · rw [hv] at hmem
        exact not_mem_takeWhile_hash url.data hmem
      · rw [hv] at hmem
        have hcu := (pyHasChar_iff url '#').mpr hmem
        rw [hne] at hcu
        exact Bool.false_ne_true hcu

/-- Witness for C7: the two fragment variants from the specification's
example collapse to the same admission result. -/
theorem C7_witness :
    is_valid_url "https://kotlinlang.org/docs/x#section1" =
      is_valid_url "https://kotlinlang.org/docs/x#section2" ∧
    pyHasChar "https://kotlinlang.org/docs/x" '#' = false := by
  constructor
  · exact (C7_fragment_equivalence.1 "https://kotlinlang.org/docs/x"
      "section1" (by decide)).trans
      (C7_fragment_equivalence.1 "https://kotlinlang.org/docs/x"
        "section2" (by decide)).symm
  · exact C7_fragment_equivalence.2 "https://kotlinlang.org/docs/x#section1"
      "https://kotlinlang.org/docs/x" (by decide)

/-- C8: the fetch adapter returns the page body exactly when the response
has status 200 and an HTML content-type; exceptions yield `None`; the
per-URL task converts a failed fetch into an empty contribution; and the
coordinator's merge loop treats a raised task and an empty contribution as
no-ops that leave every sibling contribution intact. -/
theorem C8_fetch_failures_isolated :
    (∀ (w : World) (url : String) (status : Nat) (ct body : String),
      w.http url = .response status ct body →
      (fetch_page w url = some body ↔
        (status = 200 ∧ pyIn "text/html" ct = true))) ∧
    (∀ (w : World) (url msg : String),
      w.http url = .failure msg → fetch_page w url = none) ∧
    (∀ (w : World) (vis : Finset String) (url : String),
      fetch_page w url = none → process_url w vis url = .ok []) ∧
    (∀ (rs1 rs2 : List (Except String (List String))) (e : String)
      (all : Finset String) (q log : List String),
      mergeResults (rs1 ++ Except.error e :: rs2) all q log =
        mergeResults (rs1 ++ rs2) all q log) ∧
    (∀ (rs1 rs2 : List (Except String (List String)))
      (all : Finset String) (q log : List String),
      mergeResults (rs1 ++ Except.ok [] :: rs2) all q log =
        mergeResults (rs1 ++ rs2) all q log) := by
  have hmerge : ∀ (hd : Except String (List String)),
      (∀ (all : Finset String) (q log : List String),
        mergeResults [hd] all q log = (all, q, log)) →
      ∀ (rs1 rs2 : List (Except String (List String)))
        (all : Finset String) (q log : List String),
      mergeResults (rs1 ++ hd :: rs2) all q log =
        mergeResults (rs1 ++ rs2) all q log := by
    intro hd hskip rs1
    induction rs1 with
    | nil =>
      intro rs2 all q log
      rw [List.nil_append, List.nil_append]
      match hd, hskip with
      | .error e, _ => rw [mergeResults_error]
      | .ok r, hskip =>
        have := hskip all q log
        rw [mergeResults_ok] at this ⊢
        by_cases hr : r = []
        · rw [if_pos hr]
        · rw [if_neg hr] at this
          rw [if_neg hr]
          rw [mergeResults_nil] at this
          have h1 : all ∪ (r.filter (fun u => u ∉ all)).toFinset = all := by
            have := congrArg Prod.fst this
            simpa using this
          have h2 : q ++ r.filter (fun u => u ∉ all) = q := by
            have := congrArg (fun p => p.2.1) this
            simpa using this
          have h3 : log ++ r.filter (fun u => u ∉ all) = log := by
            have := congrArg (fun p => p.2.2) this
            simpa using this
          rw [h1, h2, h3]
    | cons hd2 rest ih =>
      intro rs2 all q log
      rw [List.cons_append, List.cons_append]
      match hd2 with
      | .error e2 =>
        rw [mergeResults_error, mergeResults_error]
        exact ih rs2 all q log
      | .ok r2 =>
        rw [mergeResults_ok, mergeResults_ok]
        by_cases hr2 : r2 = []
        · rw [if_pos hr2, if_pos hr2]
          exact ih rs2 all q log
        · rw [if_neg hr2, if_neg hr2]
          exact ih rs2 _ _ _
  refine ⟨?_, ?_, ?_, ?_, ?_⟩
  · intro w url status ct body hresp
    constructor
    · intro hfetch
      simp only [fetch_page, hresp] at hfetch
      cases hst : (status == 200) with
      | false =>
        rw [if_neg (by simp [hst])] at hfetch
        exact absurd hfetch (by simp)
      | true =>
        rw [if_pos hst] at hfetch
        cases hin : pyIn "text/html" ct with
        | false =>
          rw [if_neg (by simp [hin])] at hfetch
          exact absurd hfetch (by simp)
        | true => exact ⟨by simpa using hst, rfl⟩
    · rintro ⟨rfl, hin⟩
      simp only [fetch_page, hresp]
      rw [if_pos (by decide), if_pos hin]
  · intro w url msg h
    simp only [fetch_page, h]
  · intro w vis url h
    simp only [process_url, h]
  · intro rs1 rs2 e all q log
    exact hmerge (.error e) (fun all q log => rfl) rs1 rs2 all q log
  · intro rs1 rs2 all q log
    refine hmerge (.ok []) (fun all q log => ?_) rs1 rs2 all q log
    rw [mergeResults_ok, if_pos rfl, mergeResults_nil]

/-- Witness for C8 on concrete worlds. -/
theorem C8_witness :
    (fetch_page pageWorld "https://kotlinlang.org/docs/" =
        some "<html></html>" ↔
      (200 = 200 ∧
        pyIn "text/html" "text/html; charset=utf-8" = true)) ∧
    fetch_page failWorld "https://kotlinlang.org/docs/" = none ∧
    process_url failWorld ∅ "https://kotlinlang.org/docs/" = .ok [] :=
  ⟨C8_fetch_failures_isolated.1 pageWorld "https://kotlinlang.org/docs/" 200
      "text/html; charset=utf-8" "<html></html>" rfl,
    C8_fetch_failures_isolated.2.1 failWorld "https://kotlinlang.org/docs/"
      "network unreachable" rfl,
    C8_fetch_failures_isolated.2.2.1 failWorld ∅ "https://kotlinlang.org/docs/"
      (C8_fetch_failures_isolated.2.1 failWorld "https://kotlinlang.org/docs/"
        "network unreachable" rfl)⟩

/-- C9: the two persisted artifacts are equivalent: the text file is
exactly the JSON list rendered one URL per line in the same order, and
that list is sorted, duplicate-free, and holds exactly the discovered
set. -/
theorem C9_output_artifacts_equivalent (links : Finset String) :
    write_txt links =
      String.join ((write_json links).map (fun l => l ++ "\n")) ∧
    List.Sorted (· ≤ ·) (write_json links) ∧
    (write_json links).Nodup ∧
    ∀ u, u ∈ write_json links ↔ u ∈ links := by
  refine ⟨rfl, Finset.sort_sorted _ _, Finset.sort_nodup _ _,
    fun u => Finset.mem_sort _⟩

/-- C10: every seed URL appears in the returned discovered set and hence
in both output artifacts, whatever the world does — the constructor puts
seeds into `all_links` without consulting the admission filter, and the
discovered set only grows. -/
theorem C10_seeds_always_in_output (w : World) (maxC : Nat)
    (seeds : List String) (n : Nat) (final : CrawlState)
    (hrun : crawl_loop w maxC n (initState seeds) = some final) :
    ∀ u ∈ seeds, u ∈ final.all_links ∧ u ∈ write_json final.all_links := by
  have hinv := crawl_loop_inv w maxC seeds n _ final (initState_inv w seeds) hrun
  intro u hu
  have hmem : u ∈ final.all_links := hinv.seeds_sub (List.mem_toFinset.mpr hu)
  exact ⟨hmem, (Finset.mem_sort _).mpr hmem⟩

/-- Witness for C10: an off-origin, fragment-carrying, unfetchable seed
still ends up in the output. -/
theorem C10_witness :
    "https://badhost.example/page#frag" ∈
      (⟨{"https://badhost.example/page#frag"}, [],
        {"https://badhost.example/page#frag"}, 0, 1,
        ["https://badhost.example/page#frag"],
        ["https://badhost.example/page#frag"]⟩ : CrawlState).all_links ∧
    "https://badhost.example/page#frag" ∈
      write_json (⟨{"https://badhost.example/page#frag"}, [],
        {"https://badhost.example/page#frag"}, 0, 1,
        ["https://badhost.example/page#frag"],
        ["https://badhost.example/page#frag"]⟩ : CrawlState).all_links :=
  C10_seeds_always_in_output failWorld 1 ["https://badhost.example/page#frag"]
    2 _ (by decide) "https://badhost.example/page#frag" (by decide)
